import Mathlib

/-!
Verification of the sample-to-frame transform adapter of the `steamaudio`
repository (`src/transform.rs`) and the shape assertions of `src/buffer.rs`.

The adapter (`transform` / `Transform` / `Frame` / `FrameData`) is embedded
as a pure state machine.  Sample values are modelled as integers: the adapter
itself never performs floating-point arithmetic — it only moves upstream
values into buffers, writes the constant `0.0`, and hands buffers to an
opaque callback — so the embedding is faithful for every claim considered.
The mutable callback `FnMut(&Buffer, &mut Buffer)` is modelled as a pure
function from the input buffer and the previous output buffer to the new
output buffer.  Two ghost counters (`calls`, `pulls`) record the observable
events "callback invoked" and "one sample pulled from upstream"; they touch
no other state.
-/

/-- Modelled from the spec: the plain-data `Buffer` used by `transform.rs`
(this revision of `buffer.rs`'s `Buffer` is not under `src/`; only its FFI
revision is).  Per the spec's FrameBuffer and `Buffer::from_data` in
`src/buffer.rs`, the channel count is the number of rows
(`numChannels = data.len()`) and the frame length is the length of the
first row (`numSamples = data.first().unwrap().len()`). -/
structure Buffer where
  data : List (List Int)

/-- `Buffer::channels()`: number of channel rows. -/
def Buffer.channels (b : Buffer) : Nat := b.data.length

/-- `Buffer::samples()`: length of the first channel row (frame length). -/
def Buffer.samples (b : Buffer) : Nat := (b.data.headD []).length

/-- Reading `data()[i][j]` (in-range in every reachable use; defaults are
irrelevant there). -/
def Buffer.read (b : Buffer) (i j : Nat) : Int := (b.data.getD i []).getD j 0

/-- Writing `data()[i][j] = v`. -/
def Buffer.set (b : Buffer) (i j : Nat) (v : Int) : Buffer :=
  ⟨b.data.set i ((b.data.getD i []).set j v)⟩

/-- The buffer has exactly `c` channel rows, each of length `fl`. -/
def goodBuf (c fl : Nat) (b : Buffer) : Prop :=
  b.data.length = c ∧ ∀ i, i < c → (b.data.getD i []).length = fl

/-- An upstream `rodio::Source<Item = f32>`: the remaining samples in pull
order, the (lifetime-fixed, per the stream contract) channel count and
sample rate, and `current_frame_len()` as a function of the remaining
samples. -/
structure Src where
  data : List Int
  channels : Nat
  sample_rate : Nat
  hintFn : List Int → Option Nat

/-- `Source::current_frame_len()` of the upstream at its current position. -/
def Src.current_frame_len (s : Src) : Option Nat := s.hintFn s.data

/-- A source that never reports a frame-length hint (`None`), i.e. a plain
finite stream of samples. -/
def plainSrc (channels sample_rate : Nat) (data : List Int) : Src :=
  ⟨data, channels, sample_rate, fun _ => none⟩

/-- The identity callback: copy every input sample to the same position of
the output buffer (it replaces the whole output with the input). -/
def idCallback : Buffer → Buffer → Buffer := fun i _ => i

/-- The frame chain node type `Frame` of `transform.rs`.  `data` is
`Frame::Data(FrameData { frame_size, channels, sampling_rate, next })`,
`end_` is `Frame::End`, `input` is `Frame::Input(Mutex<Option<I>>)` holding
the not-yet-consumed upstream. -/
inductive Frame where
  | data (frame_size : Nat) (channels : Nat) (sampling_rate : Nat) (next : Frame)
  | end_
  | input (s : Src)

/-- Whether a frame node is the `Input` variant. -/
def Frame.isInput : Frame → Bool
  | .input _ => true
  | _ => false

/-- Whether a frame node is the `End` variant. -/
def Frame.isEnd : Frame → Bool
  | .end_ => true
  | _ => false

/-- Every `Data` node along the chain records channel count `C`, and every
`Input` node holds a source whose channel count is `C`. -/
def chanInv (C : Nat) : Frame → Prop
  | .data _ ch _ nx => ch = C ∧ chanInv C nx
  | .end_ => True
  | .input s => s.channels = C

/-- The interleaved-to-per-channel distribution loop of
`Transform::next_frame` (lines 142–159): write each pulled value at
`data()[channel][frame]`, advancing `channel` round-robin and `frame` once
per full round.  Returns the buffer and the final `channel` and `frame`
counters. -/
def fill (chans : Nat) : Buffer → Nat → Nat → List Int → Buffer × Nat × Nat
  | b, ch, f, [] => (b, ch, f)
  | b, ch, f, v :: vs =>
      let b2 := b.set ch f v
      if ch + 1 = chans then fill chans b2 0 (f + 1) vs
      else fill chans b2 (ch + 1) f vs

/-- Result of materializing an `Input` node: the replacement node, the two
buffers after the fill and the callback, and the number of samples pulled. -/
structure MatRes where
  frame : Frame
  input_buffer : Buffer
  output_buffer : Buffer
  pulled : Nat

/-- The `Frame::Input` arm of `Transform::next_frame` (lines 131–174): read
the hint, pull up to `min(hint, samples() * channels())` samples, distribute
them round-robin into the input buffer, and build the replacement node —
`End` when the hint is `Some(0)` or no complete cross-channel frame was
produced, otherwise `Data` whose `next` holds the partially-consumed
upstream.  The callback runs once on every materialization, after the pull
and before the node is installed (line 172 sits outside the `if`). -/
def materialize (f : Buffer → Buffer → Buffer) (ib ob : Buffer) (s : Src) : MatRes :=
  if s.hintFn s.data = some 0 then
    ⟨Frame.end_, ib, f ib ob, 0⟩
  else
    let capacity := ib.samples * ib.channels
    let n := min ((s.hintFn s.data).getD capacity) capacity
    let vals := s.data.take n
    let r := fill s.channels ib 0 0 vals
    let ob2 := f r.1 ob
    if r.2.2 = 0 then ⟨Frame.end_, r.1, ob2, vals.length⟩
    else ⟨Frame.data (s.channels * r.2.2) s.channels s.sample_rate
            (Frame.input { s with data := s.data.drop n }), r.1, ob2, vals.length⟩

/-- The adapter state `Transform<I, F>` (`calls` and `pulls` are ghost event
counters, see the file header). -/
structure Transform where
  function : Buffer → Buffer → Buffer
  input_buffer : Buffer
  output_buffer : Buffer
  current_frame : Frame
  position_in_frame : Nat
  calls : Nat
  pulls : Nat

/-- `Transform::next_frame` (lines 121–183): advance `current_frame` to its
`next` node, materializing it when it is still `Input`, and reset the read
cursor.  The `unreachable!()` arm for a non-`Data` current node is modelled
as returning the state unchanged; the C10 invariant shows it is never
reached with an `Input` node. -/
def Transform.next_frame (st : Transform) : Transform :=
  match st.current_frame with
  | .data _ _ _ nx =>
    match nx with
    | .data fs ch sr nx2 =>
        { st with current_frame := .data fs ch sr nx2, position_in_frame := 0 }
    | .end_ => { st with current_frame := .end_, position_in_frame := 0 }
    | .input s =>
        let m := materialize st.function st.input_buffer st.output_buffer s
        { st with current_frame := m.frame, input_buffer := m.input_buffer,
                  output_buffer := m.output_buffer, position_in_frame := 0,
                  calls := st.calls + 1, pulls := st.pulls + m.pulled }
  | _ => st

/-- `Iterator::next` for `Transform` (lines 194–219): emit
`output_buffer.data[pos % channels][pos / channels]`, advance the cursor,
and advance to the next frame once the cursor reaches `frame_size`.  The
`Frame::Input` arm is `unreachable!()`, modelled as `(none, st)`; the C10
invariant shows it is never reached. -/
def Transform.next (st : Transform) : Option Int × Transform :=
  match st.current_frame with
  | .data fs ch _ _ =>
      let v := st.output_buffer.read (st.position_in_frame % ch) (st.position_in_frame / ch)
      let st2 := { st with position_in_frame := st.position_in_frame + 1 }
      (some v, if fs ≤ st2.position_in_frame then st2.next_frame else st2)
  | .end_ => (none, st)
  | .input _ => (none, st)

/-- Iterate `Transform.next` `n` times, keeping only the state. -/
def nexts : Nat → Transform → Transform
  | 0, st => st
  | n + 1, st => nexts n (st.next).2

/-- Pull up to `n` samples, collecting the emitted values until the first
`none` (draining the adapter). -/
def collect : Nat → Transform → List Int
  | 0, _ => []
  | n + 1, st =>
      match st.next with
      | (none, _) => []
      | (some v, st2) => v :: collect n st2

/-- The constructor `transform(input, function, output_channels, frame_size)`
(lines 12–48): allocate the two zeroed buffers, seed the chain with a dummy
`Data` node whose `next` is `Input(input)`, and immediately call
`next_frame` once. -/
def transform (input : Src) (function : Buffer → Buffer → Buffer)
    (output_channels : Nat) (frame_size : Nat) : Transform :=
  let input_buffer : Buffer := ⟨List.replicate input.channels (List.replicate frame_size 0)⟩
  let output_buffer : Buffer := ⟨List.replicate output_channels (List.replicate frame_size 0)⟩
  let st : Transform :=
    ⟨function, input_buffer, output_buffer, Frame.data 0 0 0 (Frame.input input), 0, 0, 0⟩
  st.next_frame

/-- `Source::channels` for `Transform` (lines 236–243).  `none` models the
`unreachable!()` panic on an `Input` node. -/
def Transform.channels (st : Transform) : Option Nat :=
  match st.current_frame with
  | .data _ ch _ _ => some ch
  | .end_ => some 1
  | .input _ => none

/-- `Source::sample_rate` for `Transform` (lines 245–252). -/
def Transform.sample_rate (st : Transform) : Option Nat :=
  match st.current_frame with
  | .data _ _ sr _ => some sr
  | .end_ => some 44100
  | .input _ => none

/-- `Source::current_frame_len` for `Transform` (lines 227–234). -/
def Transform.current_frame_len (st : Transform) : Option Nat :=
  match st.current_frame with
  | .data fs _ _ _ => some (fs - st.position_in_frame)
  | .end_ => some 0
  | .input _ => none

/-- A successor node as seen by the `Drop` loop of `FrameData`
(lines 86–114): a `Data` node tagged with whether it is uniquely owned
(`Arc::get_mut` succeeds), or an `End` / `Input` node.  Node payloads do
not influence the loop, so they are omitted. -/
inductive DropNode where
  | data (unique : Bool)
  | end_
  | input
deriving DecidableEq

/-- The loop's continuation test: the successor is a `Data` node and
`Arc::get_mut` on it succeeds (no other reference exists). -/
def DropNode.ownedData : DropNode → Bool
  | .data true => true
  | _ => false

/-- The `while` loop of `impl Drop for FrameData` over the successor chain:
as long as the next node is a uniquely-owned `Data`, "become" it (freeing
the current contents) and continue; stop at the first `End`, `Input`, or
still-referenced node.  Returns the residual chain handed to the ordinary
(non-looping) field drop. -/
def dropLoop : List DropNode → List DropNode
  | [] => []
  | n :: rest => if n.ownedData then dropLoop rest else n :: rest

/-- Number of materializations a full drain performs after the current
frame was materialized from a plain upstream with `L` remaining samples:
each frame consumes `cap = frame_length * channels` samples, and one final
materialization discovers exhaustion (fewer than `c` samples left). -/
def matsAfter (c cap L : Nat) : Nat :=
  if h : cap = 0 ∨ L < c ∨ L = 0 then 0
  else 1 + matsAfter c cap (L - cap)
termination_by L
decreasing_by
  push_neg at h
  omega

/-- The `Buffer` of `src/buffer.rs` as the shape data of its inner
`ffi::IPLAudioBuffer`: `numChannels` and `numSamples` are `i32` values. -/
structure BufferFfi where
  numChannels : Int
  numSamples : Int

/-- `Buffer::get_channels`: `numChannels as u16` (low 16 bits of the
two's-complement value). -/
def BufferFfi.get_channels (b : BufferFfi) : Nat := (b.numChannels % (2 ^ 16 : Int)).toNat

/-- `Buffer::get_samples`: `numSamples as u32`. -/
def BufferFfi.get_samples (b : BufferFfi) : Nat := (b.numSamples % (2 ^ 32 : Int)).toNat

/-- `Buffer::interleave` under debug semantics: `some ()` when the
`assert_eq!` comparing `get_channels() as u32 * get_samples()` with
`out.len()` passes and the opaque FFI call completes; `none` models a panic
(either the assertion or a debug overflow of the `u32` product). -/
def BufferFfi.interleave (b : BufferFfi) (outLen : Nat) : Option Unit :=
  if b.get_channels * b.get_samples < 2 ^ 32 then
    if b.get_channels * b.get_samples = outLen then some () else none
  else none

/-- `Buffer::deinterleave` under debug semantics, with the same assertion
on the input slice length. -/
def BufferFfi.deinterleave (b : BufferFfi) (inLen : Nat) : Option Unit :=
  if b.get_channels * b.get_samples < 2 ^ 32 then
    if b.get_channels * b.get_samples = inLen then some () else none
  else none

/-! ### List helper lemmas -/

theorem list_getD_set_self {α : Type} (l : List α) (i : Nat) (v d : α) (h : i < l.length) :
    (l.set i v).getD i d = v := by
  induction l generalizing i with
  | nil => simp at h
  | cons a t ih =>
    cases i with
    | zero => rfl
    | succ j => simpa using ih j (by simpa using h)

theorem list_getD_set_ne {α : Type} (l : List α) (i k : Nat) (v d : α) (h : i ≠ k) :
    (l.set i v).getD k d = l.getD k d := by
  induction l generalizing i k with
  | nil => rfl
  | cons a t ih =>
    cases i with
    | zero =>
      cases k with
      | zero => exact absurd rfl h
      | succ k => simp [List.set]
    | succ i =>
      cases k with
      | zero => simp [List.set]
      | succ k =>
        simp only [List.set, List.getD_cons_succ]
        exact ih i k (fun e => h (by rw [e]))

theorem list_getD_replicate {α : Type} (n i : Nat) (a d : α) (h : i < n) :
    (List.replicate n a).getD i d = a := by
  induction n generalizing i with
  | zero => omega
  | succ m ih =>
    cases i with
    | zero => rfl
    | succ j =>
      rw [List.replicate_succ, List.getD_cons_succ]
      exact ih j (by omega)

theorem list_getD_take {α : Type} (l : List α) (n i : Nat) (d : α) (h : i < n) :
    (l.take n).getD i d = l.getD i d := by
  induction l generalizing n i with
  | nil => simp
  | cons a t ih =>
    cases n with
    | zero => omega
    | succ m =>
      cases i with
      | zero => rfl
      | succ j => simpa using ih m j (by omega)

theorem list_headD_eq_getD {α : Type} (l : List α) (d : α) : l.headD d = l.getD 0 d := by
  cases l <;> rfl

/-! ### Buffer shape and read/write lemmas -/

theorem buffer_read_set_self (c fl : Nat) (b : Buffer) (i j : Nat) (v : Int)
    (hg : goodBuf c fl b) (hi : i < c) (hj : j < fl) : (b.set i j v).read i j = v := by
  unfold Buffer.set Buffer.read
  rw [list_getD_set_self _ _ _ _ (by rw [hg.1]; exact hi)]
  exact list_getD_set_self _ _ _ _ (by rw [hg.2 i hi]; exact hj)

theorem buffer_read_set_ne (c fl : Nat) (b : Buffer) (i j k m : Nat) (v : Int)
    (hg : goodBuf c fl b) (hi : i < c) (h : ¬(k = i ∧ m = j)) :
    (b.set i j v).read k m = b.read k m := by
  unfold Buffer.set Buffer.read
  by_cases hk : k = i
  · subst hk
    rw [list_getD_set_self _ _ _ _ (by rw [hg.1]; exact hi)]
    exact list_getD_set_ne _ _ _ _ _ (fun e => h ⟨rfl, e.symm⟩)
  · rw [list_getD_set_ne _ _ _ _ _ (fun e => hk e.symm)]

theorem goodBuf_set (c fl : Nat) (b : Buffer) (i j : Nat) (v : Int)
    (hg : goodBuf c fl b) : goodBuf c fl (b.set i j v) := by
  constructor
  · simp [Buffer.set, List.length_set, hg.1]
  · intro t ht
    show ((b.data.set i ((b.data.getD i []).set j v)).getD t []).length = fl
    by_cases hti : t = i
    · subst hti
      rw [list_getD_set_self _ _ _ _ (by rw [hg.1]; exact ht)]
      rw [List.length_set]
      exact hg.2 t ht
    · rw [list_getD_set_ne _ _ _ _ _ (fun e => hti e.symm)]
      exact hg.2 t ht

theorem buffer_samples_eq (c fl : Nat) (b : Buffer) (hg : goodBuf c fl b) (hc : 0 < c) :
    b.samples = fl := by
  unfold Buffer.samples
  rw [list_headD_eq_getD]
  exact hg.2 0 hc

theorem buffer_channels_eq (c fl : Nat) (b : Buffer) (hg : goodBuf c fl b) :
    b.channels = c := hg.1

theorem goodBuf_zero (c fl : Nat) :
    goodBuf c fl ⟨List.replicate c (List.replicate fl 0)⟩ := by
  refine ⟨by simp, fun i hi => ?_⟩
  show ((List.replicate c (List.replicate fl (0 : Int))).getD i []).length = fl
  rw [list_getD_replicate _ _ _ _ hi]
  simp

/-! ### The distribution loop -/

theorem fill_spec (c fl : Nat) (hc : 0 < c) :
    ∀ (vals : List Int) (b : Buffer) (ch f : Nat),
      goodBuf c fl b → ch < c → f * c + ch + vals.length ≤ c * fl →
      goodBuf c fl (fill c b ch f vals).1 ∧
      (fill c b ch f vals).2.2 * c + (fill c b ch f vals).2.1 = f * c + ch + vals.length ∧
      (fill c b ch f vals).2.1 < c ∧
      (∀ t, t < vals.length →
        (fill c b ch f vals).1.read ((f * c + ch + t) % c) ((f * c + ch + t) / c) =
          vals.getD t 0) ∧
      (∀ i j, i < c →
        (j * c + i < f * c + ch ∨ f * c + ch + vals.length ≤ j * c + i) →
        (fill c b ch f vals).1.read i j = b.read i j) := by
  intro vals
  induction vals with
  | nil =>
    intro b ch f hg hch _
    refine ⟨hg, by simp [fill], hch, ?_, fun i j _ _ => by simp [fill]⟩
    intro t ht
    exact absurd ht (by simp)
  | cons v vs ih =>
    intro b ch f hg hch hbound
    have hf : f < fl := by
      have h3 : c * fl = fl * c := Nat.mul_comm c fl
      by_contra hfl2
      push_neg at hfl2
      have h1 : fl * c ≤ f * c := Nat.mul_le_mul_right c hfl2
      simp only [List.length_cons] at hbound
      omega
    have hg2 := goodBuf_set c fl b ch f v hg
    have hmod : (f * c + ch) % c = ch := by
      rw [Nat.mul_comm f c, Nat.mul_add_mod]
      exact Nat.mod_eq_of_lt hch
    have hdiv : (f * c + ch) / c = f := by
      rw [Nat.mul_comm f c, Nat.mul_add_div hc, Nat.div_eq_of_lt hch]
      rfl
    by_cases hc1 : ch + 1 = c
    · -- channel wraps: continue at (0, f + 1)
      have hrw : fill c b ch f (v :: vs) = fill c (b.set ch f v) 0 (f + 1) vs := by
        simp [fill, hc1]
      have hsm : (f + 1) * c = f * c + c := Nat.succ_mul f c
      have hstep : (f + 1) * c + 0 = f * c + ch + 1 := by omega
      have hbound2 : (f + 1) * c + 0 + vs.length ≤ c * fl := by
        simp only [List.length_cons] at hbound
        omega
      obtain ⟨ihg, ihcnt, ihch, ihread, ihpres⟩ := ih (b.set ch f v) 0 (f + 1) hg2 hc hbound2
      rw [hrw]
      refine ⟨ihg, by simp only [List.length_cons]; omega, ihch, ?_, ?_⟩
      · intro t ht
        cases t with
        | zero =>
          have hpres := ihpres ch f hch (Or.inl (by omega))
          have hv : (fill c (b.set ch f v) 0 (f + 1) vs).1.read ch f = v := by
            rw [hpres]
            exact buffer_read_set_self c fl b ch f v hg hch hf
          simpa [hmod, hdiv] using hv
        | succ u =>
          have harg : (f + 1) * c + 0 + u = f * c + ch + (u + 1) := by omega
          have hu : u < vs.length := by
            simp only [List.length_cons] at ht
            omega
          have hread := ihread u hu
          rw [harg] at hread
          simpa using hread
      · intro i j hi hdisj
        simp only [List.length_cons] at hdisj
        have hpres := ihpres i j hi (by omega)
        rw [hpres]
        refine buffer_read_set_ne c fl b ch f i j v hg hch ?_
        rintro ⟨e1, e2⟩
        subst e1
        subst e2
        omega
    · -- channel advances: continue at (ch + 1, f)
      have hch1 : ch + 1 < c := lt_of_le_of_ne hch hc1
      have hrw : fill c b ch f (v :: vs) = fill c (b.set ch f v) (ch + 1) f vs := by
        simp [fill, hc1]
      have hstep : f * c + (ch + 1) = f * c + ch + 1 := by omega
      have hbound2 : f * c + (ch + 1) + vs.length ≤ c * fl := by
        simp only [List.length_cons] at hbound
        omega
      obtain ⟨ihg, ihcnt, ihch, ihread, ihpres⟩ := ih (b.set ch f v) (ch + 1) f hg2 hch1 hbound2
      rw [hrw]
      refine ⟨ihg, by simp only [List.length_cons]; omega, ihch, ?_, ?_⟩
      · intro t ht
        cases t with
        | zero =>
          have hpres := ihpres ch f hch (Or.inl (by omega))
          have hv : (fill c (b.set ch f v) (ch + 1) f vs).1.read ch f = v := by
            rw [hpres]
            exact buffer_read_set_self c fl b ch f v hg hch hf
          simpa [hmod, hdiv] using hv
        | succ u =>
          have harg : f * c + (ch + 1) + u = f * c + ch + (u + 1) := by omega
          have hu : u < vs.length := by
            simp only [List.length_cons] at ht
            omega
          have hread := ihread u hu
          rw [harg] at hread
          simpa using hread
      · intro i j hi hdisj
        simp only [List.length_cons] at hdisj
        have hpres := ihpres i j hi (by omega)
        rw [hpres]
        refine buffer_read_set_ne c fl b ch f i j v hg hch ?_
        rintro ⟨e1, e2⟩
        subst e1
        subst e2
        omega

/-! ### Materialization lemmas -/

theorem mat_frame_not_input (f : Buffer → Buffer → Buffer) (ib ob : Buffer) (s : Src) :
    (materialize f ib ob s).frame.isInput = false := by
  unfold materialize
  split
  · rfl
  · dsimp only
    split
    · rfl
    · rfl

theorem mat_id_output (ib ob : Buffer) (s : Src) :
    (materialize idCallback ib ob s).output_buffer =
      (materialize idCallback ib ob s).input_buffer := by
  unfold materialize idCallback
  split
  · rfl
  · dsimp only
    split
    · rfl
    · rfl

theorem mat_chanInv (C : Nat) (f : Buffer → Buffer → Buffer) (ib ob : Buffer) (s : Src)
    (hs : s.channels = C) : chanInv C (materialize f ib ob s).frame := by
  unfold materialize
  split
  · simp [chanInv]
  · dsimp only
    split
    · simp [chanInv]
    · exact ⟨hs, hs⟩

theorem mat_plain (c fl rate : Nat) (hc : 0 < c) (hfl : 0 < fl)
    (f : Buffer → Buffer → Buffer) (ib ob : Buffer) (R : List Int) (hib : goodBuf c fl ib) :
    (materialize f ib ob (plainSrc c rate R)).pulled = min (fl * c) R.length ∧
    goodBuf c fl (materialize f ib ob (plainSrc c rate R)).input_buffer ∧
    (R.length < c → (materialize f ib ob (plainSrc c rate R)).frame = Frame.end_) ∧
    (c ≤ R.length →
      (materialize f ib ob (plainSrc c rate R)).frame =
        Frame.data (c * (min (fl * c) R.length / c)) c rate
          (Frame.input (plainSrc c rate (R.drop (fl * c)))) ∧
      ∀ t, t < c * (min (fl * c) R.length / c) →
        (materialize f ib ob (plainSrc c rate R)).input_buffer.read (t % c) (t / c) =
          R.getD t 0) := by
  have hcap : ib.samples * ib.channels = fl * c := by
    rw [buffer_samples_eq c fl ib hib hc, buffer_channels_eq c fl ib hib]
  have hcle : c ≤ fl * c := Nat.le_mul_of_pos_left c hfl
  set vals := R.take (fl * c) with hvals
  have hlen : vals.length = min (fl * c) R.length := by
    rw [hvals, List.length_take]
  have hmm : c * fl = fl * c := Nat.mul_comm c fl
  have hboundv : 0 * c + 0 + vals.length ≤ c * fl := by
    have h1 : vals.length ≤ fl * c := by
      rw [hlen]
      exact Nat.min_le_left _ _
    omega
  obtain ⟨fg, fcnt, fch, fread, _⟩ := fill_spec c fl hc vals ib 0 0 hib hc hboundv
  have hframes : (fill c ib 0 0 vals).2.2 = vals.length / c := by
    have h3 : 0 * c + 0 + vals.length = vals.length := by omega
    rw [h3] at fcnt
    have h4 : vals.length / c = (fill c ib 0 0 vals).2.2 := by
      rw [← fcnt, Nat.mul_comm ((fill c ib 0 0 vals).2.2) c, Nat.mul_add_div hc,
        Nat.div_eq_of_lt fch]
      rfl
    exact h4.symm
  have hmateq : materialize f ib ob (plainSrc c rate R) =
      (if (fill c ib 0 0 vals).2.2 = 0 then
        (⟨Frame.end_, (fill c ib 0 0 vals).1, f (fill c ib 0 0 vals).1 ob,
          vals.length⟩ : MatRes)
      else
        ⟨Frame.data (c * (fill c ib 0 0 vals).2.2) c rate
            (Frame.input (plainSrc c rate (R.drop (fl * c)))),
          (fill c ib 0 0 vals).1, f (fill c ib 0 0 vals).1 ob, vals.length⟩) := by
    simp only [materialize, plainSrc]
    simp [hcap, hvals]
  refine ⟨?_, ?_, ?_, ?_⟩
  · rw [hmateq]
    split <;> simp [hlen]
  · rw [hmateq]
    split <;> exact fg
  · intro hR
    have h0 : (fill c ib 0 0 vals).2.2 = 0 := by
      rw [hframes, hlen, Nat.min_eq_right (le_of_lt (lt_of_lt_of_le hR hcle))]
      exact Nat.div_eq_of_lt hR
    rw [hmateq, if_pos h0]
  · intro hRg
    have hcl : c ≤ vals.length := by
      rw [hlen]
      exact le_min hcle hRg
    have hne : (fill c ib 0 0 vals).2.2 ≠ 0 := by
      rw [hframes]
      have := Nat.div_pos hcl hc
      omega
    rw [hmateq, if_neg hne]
    constructor
    · rw [hframes, hlen]
    · intro t ht
      have hlv : vals.length = fl * c ⊓ R.length := List.length_take _ _
      have h5 : c * (vals.length / c) ≤ vals.length := by
        rw [Nat.mul_comm]
        exact Nat.div_mul_le_self vals.length c
      rw [hlv] at h5
      have htl : t < fl * c ⊓ R.length := by omega
      have hr := fread t (by rw [hlv]; exact htl)
      have h6 : 0 * c + 0 + t = t := by omega
      rw [h6] at hr
      rw [hr, hvals]
      exact list_getD_take R (fl * c) t 0 (lt_of_lt_of_le htl inf_le_left)

/-! ### Stepping lemmas for the adapter -/

theorem next_eq_data (fn : Buffer → Buffer → Buffer) (ib ob : Buffer) (fs ch sr : Nat)
    (nx : Frame) (pos cl pl : Nat) :
    Transform.next ⟨fn, ib, ob, Frame.data fs ch sr nx, pos, cl, pl⟩ =
      (some (ob.read (pos % ch) (pos / ch)),
        if fs ≤ pos + 1 then
          Transform.next_frame ⟨fn, ib, ob, Frame.data fs ch sr nx, pos + 1, cl, pl⟩
        else ⟨fn, ib, ob, Frame.data fs ch sr nx, pos + 1, cl, pl⟩) := rfl

theorem next_eq_end (fn : Buffer → Buffer → Buffer) (ib ob : Buffer) (pos cl pl : Nat) :
    Transform.next ⟨fn, ib, ob, Frame.end_, pos, cl, pl⟩ =
      (none, ⟨fn, ib, ob, Frame.end_, pos, cl, pl⟩) := rfl

theorem next_frame_eq_input (fn : Buffer → Buffer → Buffer) (ib ob : Buffer)
    (a b c' : Nat) (s : Src) (pos cl pl : Nat) :
    Transform.next_frame ⟨fn, ib, ob, Frame.data a b c' (Frame.input s), pos, cl, pl⟩ =
      ⟨fn, (materialize fn ib ob s).input_buffer, (materialize fn ib ob s).output_buffer,
        (materialize fn ib ob s).frame, 0, cl + 1, pl + (materialize fn ib ob s).pulled⟩ := rfl

theorem nexts_end (st : Transform) (h : st.current_frame = Frame.end_) :
    ∀ n, nexts n st = st := by
  intro n
  induction n with
  | zero => rfl
  | succ m ih =>
    have hstep : st.next = (none, st) := by
      unfold Transform.next
      rw [h]
    show nexts m (st.next).2 = st
    rw [hstep]
    exact ih

theorem collect_end (st : Transform) (h : st.current_frame = Frame.end_) :
    ∀ n, collect n st = [] := by
  intro n
  cases n with
  | zero => rfl
  | succ m =>
    have hstep : st.next = (none, st) := by
      unfold Transform.next
      rw [h]
    simp only [collect]
    rw [hstep]

theorem nexts_within (fn : Buffer → Buffer → Buffer) (ib ob : Buffer) (fs ch sr : Nat)
    (nx : Frame) (cl pl : Nat) :
    ∀ (m pos : Nat), pos + m < fs →
      nexts m ⟨fn, ib, ob, Frame.data fs ch sr nx, pos, cl, pl⟩ =
        ⟨fn, ib, ob, Frame.data fs ch sr nx, pos + m, cl, pl⟩ := by
  intro m
  induction m with
  | zero =>
    intro pos _
    rfl
  | succ m ih =>
    intro pos h
    show nexts m ((Transform.next ⟨fn, ib, ob, Frame.data fs ch sr nx, pos, cl, pl⟩).2) = _
    rw [next_eq_data]
    dsimp only
    rw [if_neg (by omega)]
    rw [ih (pos + 1) (by omega)]
    congr 1
    omega

theorem steps_frame (fn : Buffer → Buffer → Buffer) (ib ob : Buffer) (fs ch sr : Nat)
    (nx : Frame) (cl pl : Nat) :
    ∀ (r pos : Nat), pos + r + 1 = fs → ∀ n,
      nexts (r + 1 + n) ⟨fn, ib, ob, Frame.data fs ch sr nx, pos, cl, pl⟩ =
        nexts n (Transform.next_frame ⟨fn, ib, ob, Frame.data fs ch sr nx, fs, cl, pl⟩) ∧
      collect (r + 1 + n) ⟨fn, ib, ob, Frame.data fs ch sr nx, pos, cl, pl⟩ =
        (List.range (r + 1)).map (fun t => ob.read ((pos + t) % ch) ((pos + t) / ch)) ++
          collect n (Transform.next_frame ⟨fn, ib, ob, Frame.data fs ch sr nx, fs, cl, pl⟩) := by
  intro r
  induction r with
  | zero =>
    intro pos hpos n
    have hps : pos + 1 = fs := by omega
    constructor
    · have h1 : 0 + 1 + n = n + 1 := by omega
      rw [h1]
      show nexts n ((Transform.next ⟨fn, ib, ob, Frame.data fs ch sr nx, pos, cl, pl⟩).2) = _
      rw [next_eq_data]
      dsimp only
      rw [if_pos (by omega), hps]
    · have h1 : 0 + 1 + n = n + 1 := by omega
      rw [h1]
      simp only [collect]
      rw [next_eq_data]
      dsimp only
      rw [if_pos (by omega), hps]
      have h2 : (0 : Nat) + 1 = 1 := rfl
      rw [h2, List.range_succ_eq_map, List.range_zero]
      simp only [List.map_cons, List.map_nil, List.singleton_append, Nat.add_zero]
  | succ r ih =>
    intro pos hpos n
    have h1 : r + 1 + 1 + n = (r + 1 + n) + 1 := by omega
    constructor
    · rw [h1]
      show nexts (r + 1 + n) ((Transform.next ⟨fn, ib, ob, Frame.data fs ch sr nx, pos, cl, pl⟩).2) = _
      rw [next_eq_data]
      dsimp only
      rw [if_neg (by omega)]
      exact (ih (pos + 1) (by omega) n).1
    · rw [h1]
      simp only [collect]
      rw [next_eq_data]
      dsimp only
      rw [if_neg (by omega)]
      rw [(ih (pos + 1) (by omega) n).2]
      rw [List.range_succ_eq_map (r + 1)]
      simp only [List.map_cons, List.map_map, List.cons_append]
      have hmapeq :
          List.map (fun t => ob.read ((pos + 1 + t) % ch) ((pos + 1 + t) / ch))
              (List.range (r + 1)) =
            List.map ((fun t => ob.read ((pos + t) % ch) ((pos + t) / ch)) ∘ Nat.succ)
              (List.range (r + 1)) := by
        refine List.map_congr_left ?_
        intro a _
        simp only [Function.comp_apply]
        have e1 : pos + 1 + a = pos + (a + 1) := by omega
        rw [e1]
      rw [hmapeq]
      rfl

/-! ### Materialization count -/

theorem matsAfter_zero (c cap L : Nat) (h : L < c) : matsAfter c cap L = 0 := by
  rw [matsAfter]
  rw [dif_pos (Or.inr (Or.inl h))]

theorem matsAfter_step (c cap L : Nat) (h1 : c ≤ L) (h2 : 0 < c) (h3 : 0 < cap) :
    matsAfter c cap L = 1 + matsAfter c cap (L - cap) := by
  rw [matsAfter]
  rw [dif_neg]
  push_neg
  exact ⟨by omega, by omega, by omega⟩

theorem matsAfter_mul (c cap : Nat) (hc : 0 < c) (hcap : c ≤ cap) :
    ∀ k, matsAfter c cap (k * cap) = k := by
  intro k
  induction k with
  | zero =>
    have h0 : 0 * cap = 0 := by omega
    rw [h0]
    exact matsAfter_zero c cap 0 hc
  | succ k ih =>
    have hmul : (k + 1) * cap = k * cap + cap := Nat.succ_mul k cap
    rw [hmul]
    rw [matsAfter_step c cap (k * cap + cap) (by omega) hc (by omega)]
    have hsub : k * cap + cap - cap = k * cap := by omega
    rw [hsub, ih]
    omega

/-! ### Full drain: callback count -/

theorem drain_calls (c fl rate : Nat) (hc : 0 < c) (hfl : 0 < fl)
    (fn : Buffer → Buffer → Buffer) :
    ∀ (L : Nat) (R : List Int), R.length = L → ∀ (ib ob : Buffer), goodBuf c fl ib →
      ∀ (cs ps extra : Nat),
        (nexts (L + 1 + extra)
          ⟨fn, (materialize fn ib ob (plainSrc c rate R)).input_buffer,
            (materialize fn ib ob (plainSrc c rate R)).output_buffer,
            (materialize fn ib ob (plainSrc c rate R)).frame, 0, cs, ps⟩).calls =
          cs + matsAfter c (fl * c) L := by
  intro L
  induction L using Nat.strong_induction_on with
  | _ L IH =>
    intro R hR ib ob hib cs ps extra
    subst hR
    obtain ⟨hpull, hgood, hend, hdata⟩ := mat_plain c fl rate hc hfl fn ib ob R hib
    by_cases hLc : R.length < c
    · rw [hend hLc]
      rw [nexts_end _ rfl]
      rw [matsAfter_zero c (fl * c) R.length hLc]
      rfl
    · push_neg at hLc
      obtain ⟨hfr, hread⟩ := hdata hLc
      have hcle : c ≤ fl * c := Nat.le_mul_of_pos_left c hfl
      have hminc : c ≤ min (fl * c) R.length := le_min hcle hLc
      have hq1 : 1 ≤ min (fl * c) R.length / c := Nat.div_pos hminc hc
      have hfsle : c * (min (fl * c) R.length / c) ≤ min (fl * c) R.length := by
        rw [Nat.mul_comm]
        exact Nat.div_mul_le_self _ c
      have hminle : min (fl * c) R.length ≤ R.length := Nat.min_le_right _ _
      have hminle2 : min (fl * c) R.length ≤ fl * c := Nat.min_le_left _ _
      have hfs1 : 1 ≤ c * (min (fl * c) R.length / c) :=
        le_trans hc (Nat.le_mul_of_pos_right c hq1)
      have hcappos : 0 < fl * c := Nat.mul_pos hfl hc
      rw [hfr]
      have hdecomp : R.length + 1 + extra =
          (c * (min (fl * c) R.length / c) - 1) + 1 +
            (R.length - fl * c + 1 + (extra + (min (fl * c) R.length -
              c * (min (fl * c) R.length / c)) + ((R.length - (R.length - fl * c)) -
                min (fl * c) R.length))) := by
        omega
      rw [hdecomp]
      have hsf := steps_frame fn
        (materialize fn ib ob (plainSrc c rate R)).input_buffer
        (materialize fn ib ob (plainSrc c rate R)).output_buffer
        (c * (min (fl * c) R.length / c)) c rate
        (Frame.input (plainSrc c rate (R.drop (fl * c)))) cs ps
        (c * (min (fl * c) R.length / c) - 1) 0 (by omega)
        (R.length - fl * c + 1 + (extra + (min (fl * c) R.length -
          c * (min (fl * c) R.length / c)) + ((R.length - (R.length - fl * c)) -
            min (fl * c) R.length)))
      rw [hsf.1]
      rw [next_frame_eq_input]
      have hR' : (R.drop (fl * c)).length = R.length - fl * c := by
        rw [List.length_drop]
      have hlt : R.length - fl * c < R.length := by omega
      have := IH (R.length - fl * c) hlt (R.drop (fl * c)) hR'
        (materialize fn ib ob (plainSrc c rate R)).input_buffer
        (materialize fn ib ob (plainSrc c rate R)).output_buffer hgood
        (cs + 1) (ps + (materialize fn
          (materialize fn ib ob (plainSrc c rate R)).input_buffer
          (materialize fn ib ob (plainSrc c rate R)).output_buffer
          (plainSrc c rate (R.drop (fl * c)))).pulled)
        (extra + (min (fl * c) R.length - c * (min (fl * c) R.length / c)) +
          ((R.length - (R.length - fl * c)) - min (fl * c) R.length))
      rw [this]
      rw [matsAfter_step c (fl * c) R.length hLc hc hcappos]
      omega

/-! ### Full drain: emitted samples under the identity callback -/

theorem drain_out (c fl rate : Nat) (hc : 0 < c) (hfl : 0 < fl) :
    ∀ (L : Nat) (R : List Int), R.length = L → ∀ (ib ob : Buffer), goodBuf c fl ib →
      ∀ (cs ps extra : Nat),
        collect (L + 1 + extra)
          ⟨idCallback, (materialize idCallback ib ob (plainSrc c rate R)).input_buffer,
            (materialize idCallback ib ob (plainSrc c rate R)).output_buffer,
            (materialize idCallback ib ob (plainSrc c rate R)).frame, 0, cs, ps⟩ =
          R.take (c * (L / c)) := by
  intro L
  induction L using Nat.strong_induction_on with
  | _ L IH =>
    intro R hR ib ob hib cs ps extra
    subst hR
    obtain ⟨hpull, hgood, hend, hdata⟩ := mat_plain c fl rate hc hfl idCallback ib ob R hib
    by_cases hLc : R.length < c
    · rw [hend hLc]
      rw [collect_end _ rfl]
      rw [Nat.div_eq_of_lt hLc]
      simp
    · push_neg at hLc
      obtain ⟨hfr, hread⟩ := hdata hLc
      have hcle : c ≤ fl * c := Nat.le_mul_of_pos_left c hfl
      have hminc : c ≤ min (fl * c) R.length := le_min hcle hLc
      have hq1 : 1 ≤ min (fl * c) R.length / c := Nat.div_pos hminc hc
      have hfsle : c * (min (fl * c) R.length / c) ≤ min (fl * c) R.length := by
        rw [Nat.mul_comm]
        exact Nat.div_mul_le_self _ c
      have hminle : min (fl * c) R.length ≤ R.length := Nat.min_le_right _ _
      have hminle2 : min (fl * c) R.length ≤ fl * c := Nat.min_le_left _ _
      have hfs1 : 1 ≤ c * (min (fl * c) R.length / c) :=
        le_trans hc (Nat.le_mul_of_pos_right c hq1)
      have hcappos : 0 < fl * c := Nat.mul_pos hfl hc
      rw [hfr]
      have hdecomp : R.length + 1 + extra =
          (c * (min (fl * c) R.length / c) - 1) + 1 +
            (R.length - fl * c + 1 + (extra + (min (fl * c) R.length -
              c * (min (fl * c) R.length / c)) + ((R.length - (R.length - fl * c)) -
                min (fl * c) R.length))) := by
        omega
      rw [hdecomp]
      have hsf := steps_frame idCallback
        (materialize idCallback ib ob (plainSrc c rate R)).input_buffer
        (materialize idCallback ib ob (plainSrc c rate R)).output_buffer
        (c * (min (fl * c) R.length / c)) c rate
        (Frame.input (plainSrc c rate (R.drop (fl * c)))) cs ps
        (c * (min (fl * c) R.length / c) - 1) 0 (by omega)
        (R.length - fl * c + 1 + (extra + (min (fl * c) R.length -
          c * (min (fl * c) R.length / c)) + ((R.length - (R.length - fl * c)) -
            min (fl * c) R.length)))
      rw [hsf.2]
      rw [next_frame_eq_input]
      have hR' : (R.drop (fl * c)).length = R.length - fl * c := by
        rw [List.length_drop]
      have hlt : R.length - fl * c < R.length := by omega
      rw [IH (R.length - fl * c) hlt (R.drop (fl * c)) hR'
        (materialize idCallback ib ob (plainSrc c rate R)).input_buffer
        (materialize idCallback ib ob (plainSrc c rate R)).output_buffer hgood
        (cs + 1) (ps + (materialize idCallback
          (materialize idCallback ib ob (plainSrc c rate R)).input_buffer
          (materialize idCallback ib ob (plainSrc c rate R)).output_buffer
          (plainSrc c rate (R.drop (fl * c)))).pulled)
        (extra + (min (fl * c) R.length - c * (min (fl * c) R.length / c)) +
          ((R.length - (R.length - fl * c)) - min (fl * c) R.length))]
      have hfseq : c * (min (fl * c) R.length / c) - 1 + 1 =
          c * (min (fl * c) R.length / c) := by omega
      rw [hfseq]
      have hob := mat_id_output ib ob (plainSrc c rate R)
      have hmap : (List.range (c * (min (fl * c) R.length / c))).map
            (fun t => (materialize idCallback ib ob (plainSrc c rate R)).output_buffer.read
              ((0 + t) % c) ((0 + t) / c)) =
          R.take (c * (min (fl * c) R.length / c)) := by
        refine List.ext_getElem ?_ ?_
        · simp only [List.length_map, List.length_range, List.length_take]
          exact (inf_eq_left.mpr (by omega)).symm
        · intro p h1 h2
          simp only [List.length_map, List.length_range] at h1
          simp only [List.getElem_map, List.getElem_range, List.getElem_take]
          rw [hob]
          have h0p : 0 + p = p := by omega
          rw [h0p]
          rw [hread p h1]
          exact List.getD_eq_getElem R 0 (by omega)
      rw [hmap]
      by_cases hcap2 : fl * c ≤ R.length
      · have hMeq : min (fl * c) R.length = fl * c := Nat.min_eq_left hcap2
        have hdivc : fl * c / c = fl := Nat.mul_div_cancel fl hc
        have hFSeq : c * (min (fl * c) R.length / c) = c * fl := by
          rw [hMeq, hdivc]
        rw [hFSeq]
        have hcomm : c * fl = fl * c := Nat.mul_comm c fl
        rw [hcomm]
        rw [← List.take_add]
        congr 1
        have e4 : R.length / c = fl + (R.length - fl * c) / c := by
          have e5 : R.length = c * fl + (R.length - fl * c) := by omega
          conv_lhs => rw [e5]
          rw [Nat.mul_add_div hc]
        rw [e4, Nat.mul_add, hcomm]
      · push_neg at hcap2
        have hMeq : min (fl * c) R.length = R.length :=
          Nat.min_eq_right (le_of_lt hcap2)
        rw [hMeq]
        rw [List.drop_eq_nil_of_le (by omega)]
        simp

/-! ### Reachable-state invariants -/

theorem transform_eq (s : Src) (fn : Buffer → Buffer → Buffer) (co fl : Nat) :
    transform s fn co fl =
      ⟨fn,
        (materialize fn ⟨List.replicate s.channels (List.replicate fl 0)⟩
          ⟨List.replicate co (List.replicate fl 0)⟩ s).input_buffer,
        (materialize fn ⟨List.replicate s.channels (List.replicate fl 0)⟩
          ⟨List.replicate co (List.replicate fl 0)⟩ s).output_buffer,
        (materialize fn ⟨List.replicate s.channels (List.replicate fl 0)⟩
          ⟨List.replicate co (List.replicate fl 0)⟩ s).frame,
        0, 1,
        0 + (materialize fn ⟨List.replicate s.channels (List.replicate fl 0)⟩
          ⟨List.replicate co (List.replicate fl 0)⟩ s).pulled⟩ := rfl

theorem next_frame_not_input (st : Transform) (h : st.current_frame.isInput = false) :
    st.next_frame.current_frame.isInput = false := by
  obtain ⟨fn, ib, ob, cf, pos, cl, pl⟩ := st
  cases cf with
  | data fs ch sr nx =>
    cases nx with
    | data a b c' n2 => rfl
    | end_ => rfl
    | input s => exact mat_frame_not_input fn ib ob s
  | end_ => exact h
  | input s => exact h

theorem next_not_input (st : Transform) (h : st.current_frame.isInput = false) :
    ((st.next).2).current_frame.isInput = false := by
  obtain ⟨fn, ib, ob, cf, pos, cl, pl⟩ := st
  cases cf with
  | data fs ch sr nx =>
    rw [next_eq_data]
    dsimp only
    split
    · exact next_frame_not_input _ rfl
    · rfl
  | end_ => exact h
  | input s => exact h

theorem nexts_not_input :
    ∀ (n : Nat) (st : Transform), st.current_frame.isInput = false →
      (nexts n st).current_frame.isInput = false := by
  intro n
  induction n with
  | zero => intro st h; exact h
  | succ m ih => intro st h; exact ih ((st.next).2) (next_not_input st h)

theorem next_frame_chanInv (C : Nat) (st : Transform) (h : chanInv C st.current_frame) :
    chanInv C st.next_frame.current_frame := by
  obtain ⟨fn, ib, ob, cf, pos, cl, pl⟩ := st
  cases cf with
  | data fs ch sr nx =>
    obtain ⟨h1, h2⟩ := h
    cases nx with
    | data a b c' n2 => exact h2
    | end_ => trivial
    | input s => exact mat_chanInv C fn ib ob s h2
  | end_ => exact h
  | input s => exact h

theorem next_chanInv (C : Nat) (st : Transform) (h : chanInv C st.current_frame) :
    chanInv C ((st.next).2).current_frame := by
  obtain ⟨fn, ib, ob, cf, pos, cl, pl⟩ := st
  cases cf with
  | data fs ch sr nx =>
    rw [next_eq_data]
    dsimp only
    split
    · exact next_frame_chanInv C _ h
    · exact h
  | end_ => exact h
  | input s => exact h

theorem nexts_chanInv (C : Nat) :
    ∀ (n : Nat) (st : Transform), chanInv C st.current_frame →
      chanInv C (nexts n st).current_frame := by
  intro n
  induction n with
  | zero => intro st h; exact h
  | succ m ih => intro st h; exact ih ((st.next).2) (next_chanInv C st h)

theorem transform_not_input (s : Src) (fn : Buffer → Buffer → Buffer) (co fl : Nat) :
    (transform s fn co fl).current_frame.isInput = false :=
  mat_frame_not_input fn _ _ s

theorem transform_chanInv (s : Src) (fn : Buffer → Buffer → Buffer) (co fl : Nat) :
    chanInv s.channels (transform s fn co fl).current_frame :=
  mat_chanInv s.channels fn _ _ s rfl

theorem channels_of_inv (C : Nat) (st : Transform) (hni : st.current_frame.isInput = false)
    (hci : chanInv C st.current_frame) :
    st.channels = some (if st.current_frame.isEnd then 1 else C) := by
  obtain ⟨fn, ib, ob, cf, pos, cl, pl⟩ := st
  cases cf with
  | data fs ch sr nx =>
    obtain ⟨h1, _⟩ := hci
    simp [Transform.channels, Frame.isEnd, h1]
  | end_ => simp [Transform.channels, Frame.isEnd]
  | input s => simp [Frame.isInput] at hni

theorem accessors_some (st : Transform) (hni : st.current_frame.isInput = false) :
    st.channels ≠ none ∧ st.sample_rate ≠ none ∧ st.current_frame_len ≠ none := by
  obtain ⟨fn, ib, ob, cf, pos, cl, pl⟩ := st
  cases cf with
  | data fs ch sr nx =>
    refine ⟨?_, ?_, ?_⟩ <;> simp [Transform.channels, Transform.sample_rate,
      Transform.current_frame_len]
  | end_ =>
    refine ⟨?_, ?_, ?_⟩ <;> simp [Transform.channels, Transform.sample_rate,
      Transform.current_frame_len]
  | input s => simp [Frame.isInput] at hni

/-! ### Further helper lemmas -/

theorem list_getD_append_left {α : Type} (A B : List α) (j : Nat) (d : α)
    (h : j < A.length) : (A ++ B).getD j d = A.getD j d := by
  induction A generalizing j with
  | nil => simp at h
  | cons a t ih =>
    cases j with
    | zero => rfl
    | succ u =>
      simp only [List.cons_append, List.getD_cons_succ]
      exact ih u (by simpa using h)

theorem mat_pulled (f : Buffer → Buffer → Buffer) (ib ob : Buffer) (s : Src) :
    (materialize f ib ob s).pulled =
      if s.hintFn s.data = some 0 then 0
      else min (min ((s.hintFn s.data).getD (ib.samples * ib.channels))
        (ib.samples * ib.channels)) s.data.length := by
  simp only [materialize]
  split
  · rfl
  · split <;> (rw [List.length_take])

theorem mat_plain_ib (c fl rate : Nat) (hc : 0 < c)
    (f : Buffer → Buffer → Buffer) (ib ob : Buffer) (R : List Int) (hib : goodBuf c fl ib) :
    (materialize f ib ob (plainSrc c rate R)).input_buffer =
      (fill c ib 0 0 (R.take (fl * c))).1 := by
  have hcap : ib.samples * ib.channels = fl * c := by
    rw [buffer_samples_eq c fl ib hib hc, buffer_channels_eq c fl ib hib]
  simp only [materialize, plainSrc]
  simp [hcap]
  split <;> rfl

theorem mat_plain_preserve (c fl rate : Nat) (hc : 0 < c)
    (f : Buffer → Buffer → Buffer) (ib ob : Buffer) (R : List Int) (hib : goodBuf c fl ib) :
    ∀ i j, i < c → min (fl * c) R.length ≤ j * c + i →
      (materialize f ib ob (plainSrc c rate R)).input_buffer.read i j = ib.read i j := by
  intro i j hi hj
  rw [mat_plain_ib c fl rate hc f ib ob R hib]
  have hlen : (R.take (fl * c)).length = fl * c ⊓ R.length := List.length_take _ _
  have hmm : c * fl = fl * c := Nat.mul_comm c fl
  have hbound : 0 * c + 0 + (R.take (fl * c)).length ≤ c * fl := by
    have h1 : (R.take (fl * c)).length ≤ fl * c := by
      rw [hlen]
      exact inf_le_left
    omega
  have h5 := (fill_spec c fl hc (R.take (fl * c)) ib 0 0 hib hc hbound).2.2.2.2
  refine h5 i j hi (Or.inr ?_)
  rw [hlen]
  have hje : min (fl * c) R.length = fl * c ⊓ R.length := rfl
  omega

theorem nexts_within_st (st : Transform) (fs ch sr : Nat) (nx : Frame)
    (hcf : st.current_frame = Frame.data fs ch sr nx) (m : Nat)
    (hm : st.position_in_frame + m < fs) :
    nexts m st = { st with position_in_frame := st.position_in_frame + m } := by
  obtain ⟨fn, ib, ob, cf, pos, cl, pl⟩ := st
  have hcf2 : cf = Frame.data fs ch sr nx := hcf
  subst hcf2
  exact nexts_within fn ib ob fs ch sr nx cl pl m pos hm

/-! ### Claim theorems -/

/-- C1: dropping the head of a frame chain deallocates it iteratively: the
`Drop` loop of `FrameData` (a total, structurally-recursive function here,
so it terminates on every finite chain) consumes the whole prefix of
uniquely-owned `Data` successors — for a chain of `N` such nodes ending in
`End`, all `N` are reclaimed and only the `End` node survives — and it
stops exactly at the first successor that is an `End`/`Input` node or is
still referenced elsewhere.  Consequently the node finally handed to the
ordinary field drop is never a uniquely-owned `Data` node, so the depth of
nested destructor calls is bounded by a constant independent of `N`. -/
theorem C1_teardown_iterative (N : Nat) :
    dropLoop (List.replicate N (DropNode.data true) ++ [DropNode.end_]) = [DropNode.end_] ∧
    (∀ (l : List DropNode) (x : DropNode) (r : List DropNode),
      dropLoop l = x :: r → x.ownedData = false) ∧
    (∀ l : List DropNode, l.takeWhile DropNode.ownedData ++ dropLoop l = l) := by
  refine ⟨?_, ?_, ?_⟩
  · induction N with
    | zero => rfl
    | succ k ih =>
      rw [List.replicate_succ, List.cons_append]
      simpa [dropLoop, DropNode.ownedData] using ih
  · intro l
    induction l with
    | nil => intro x r h; simp [dropLoop] at h
    | cons a t ih =>
      intro x r h
      by_cases ha : a.ownedData = true
      · simp only [dropLoop] at h
        rw [if_pos ha] at h
        exact ih x r h
      · simp only [dropLoop] at h
        rw [if_neg ha] at h
        injection h with h1 _
        subst h1
        exact Bool.eq_false_iff.mpr ha
  · intro l
    induction l with
    | nil => rfl
    | cons a t ih =>
      by_cases ha : a.ownedData = true
      · simp only [dropLoop, List.takeWhile_cons, ha, if_true, List.cons_append]
        rw [ih]
      · simp only [dropLoop, List.takeWhile_cons]
        rw [if_neg ha, if_neg ha]
        rfl

/-- Witness for C1: a three-node uniquely-owned chain collapses to its
`End` terminator, and a shared `Data` successor stops the loop at once. -/
theorem C1_teardown_iterative_witness :
    dropLoop (List.replicate 3 (DropNode.data true) ++ [DropNode.end_]) = [DropNode.end_] ∧
    DropNode.ownedData (DropNode.data false) = false := by
  refine ⟨(C1_teardown_iterative 3).1, ?_⟩
  exact (C1_teardown_iterative 0).2.1 [DropNode.data false] (DropNode.data false) [] rfl

/-- C2 counterexample: constructing the adapter is not lazy — the
constructor itself calls `next_frame`, which pulls the full first frame
from upstream (2 samples here) and invokes the callback once, refuting
"constructing a Transform performs no upstream pulls and no callback
invocation". -/
theorem C2_construction_eager :
    (transform (plainSrc 1 44100 [1, 2]) idCallback 1 2).calls = 1 ∧
    (transform (plainSrc 1 44100 [1, 2]) idCallback 1 2).pulls = 2 ∧
    (1 : Nat) ≠ 0 ∧ (2 : Nat) ≠ 0 := by
  refine ⟨rfl, rfl, by decide, by decide⟩

/-- C2 (amended): construction itself materializes the first frame, pulling
`min(frame_length × input_channels, samples available)` samples and
invoking the callback exactly once; thereafter, pulling `m` samples with
`m` below the current frame's `frame_size` triggers no further upstream
pull and no further callback invocation. -/
theorem C2_first_frame_at_construction (S : List Int) (c rate co fl : Nat)
    (f : Buffer → Buffer → Buffer) (hc : 0 < c) (hfl : 0 < fl) :
    (transform (plainSrc c rate S) f co fl).calls = 1 ∧
    (transform (plainSrc c rate S) f co fl).pulls = min (fl * c) S.length ∧
    (∀ m fs ch sr nx,
      (transform (plainSrc c rate S) f co fl).current_frame = Frame.data fs ch sr nx →
      m < fs →
      (nexts m (transform (plainSrc c rate S) f co fl)).calls = 1 ∧
      (nexts m (transform (plainSrc c rate S) f co fl)).pulls =
        min (fl * c) S.length) := by
  have hib : goodBuf c fl ⟨List.replicate (plainSrc c rate S).channels
      (List.replicate fl 0)⟩ := goodBuf_zero c fl
  obtain ⟨hpull, _, _, _⟩ := mat_plain c fl rate hc hfl f
    ⟨List.replicate (plainSrc c rate S).channels (List.replicate fl 0)⟩
    ⟨List.replicate co (List.replicate fl 0)⟩ S hib
  have hcalls : (transform (plainSrc c rate S) f co fl).calls = 1 := rfl
  have hpulls : (transform (plainSrc c rate S) f co fl).pulls = min (fl * c) S.length := by
    rw [transform_eq]
    show 0 + (materialize f _ _ (plainSrc c rate S)).pulled = min (fl * c) S.length
    rw [hpull]
    omega
  refine ⟨hcalls, hpulls, ?_⟩
  intro m fs ch sr nx hcf hm
  have hpos : (transform (plainSrc c rate S) f co fl).position_in_frame = 0 := rfl
  have hwithin := nexts_within_st (transform (plainSrc c rate S) f co fl) fs ch sr nx hcf m
    (by rw [hpos]; omega)
  rw [hwithin]
  exact ⟨hcalls, hpulls⟩

/-- Witness for C2 (amended) at a concrete stream. -/
theorem C2_first_frame_at_construction_witness :
    (transform (plainSrc 1 44100 [1, 2, 3]) idCallback 1 2).calls = 1 ∧
    (nexts 1 (transform (plainSrc 1 44100 [1, 2, 3]) idCallback 1 2)).calls = 1 := by
  have h := C2_first_frame_at_construction [1, 2, 3] 1 44100 1 2 idCallback
    (by decide) (by decide)
  refine ⟨h.1, ?_⟩
  exact (h.2.2 1 2 1 44100 (Frame.input (plainSrc 1 44100 [3])) rfl (by decide)).1

/-- C3 counterexample: a single-channel upstream of exactly `1 × 1` samples
(`k = 1`, `frame_length = 1`), fully drained, invokes the callback twice,
not once: the materialization that discovers exhaustion and installs the
`End` node also invokes the callback (the call sits outside the `if` in
`next_frame`). -/
theorem C3_end_transition_invokes_callback :
    (nexts 2 (transform (plainSrc 1 44100 [5]) idCallback 1 1)).calls = 2 ∧
    (2 : Nat) ≠ 1 := by
  refine ⟨rfl, by decide⟩

/-- C3 (amended): for a single-channel upstream of exactly `k × frame_length`
samples that is then exhausted, fully draining the adapter invokes the
callback exactly `k + 1` times — once per produced frame, plus one more
during the final materialization that discovers exhaustion and produces the
`End` node.  (`nexts` beyond the drain point is absorbed by the `End`
state, so any fuel of at least `|S| + 1` observes the same count.) -/
theorem C3_callback_count (S : List Int) (k fl rate co extra : Nat)
    (f : Buffer → Buffer → Buffer) (hfl : 0 < fl) (hk : 0 < k)
    (hS : S.length = k * fl) :
    (nexts (S.length + 1 + extra) (transform (plainSrc 1 rate S) f co fl)).calls =
      k + 1 := by
  rw [transform_eq]
  have hib : goodBuf 1 fl ⟨List.replicate (plainSrc 1 rate S).channels
      (List.replicate fl 0)⟩ := goodBuf_zero 1 fl
  have h := drain_calls 1 fl rate (by decide) hfl f S.length S rfl
    ⟨List.replicate (plainSrc 1 rate S).channels (List.replicate fl 0)⟩
    ⟨List.replicate co (List.replicate fl 0)⟩ hib 1
    (0 + (materialize f ⟨List.replicate (plainSrc 1 rate S).channels
      (List.replicate fl 0)⟩ ⟨List.replicate co (List.replicate fl 0)⟩
      (plainSrc 1 rate S)).pulled) extra
  rw [h]
  have hcap : fl * 1 = fl := by omega
  rw [hcap, hS, matsAfter_mul 1 fl (by decide) hfl k]
  omega

/-- Witness for C3 (amended): `k = 2` frames of length 2 give 3 callback
invocations over a full drain. -/
theorem C3_callback_count_witness :
    (nexts 5 (transform (plainSrc 1 44100 [1, 2, 3, 4]) idCallback 1 2)).calls = 3 := by
  have h := C3_callback_count [1, 2, 3, 4] 2 2 44100 1 0 idCallback
    (by decide) (by decide) (by decide)
  exact h

/-- C4 counterexample: for a 2-channel upstream of 3 samples with the
identity callback and `frame_length = 2`, the adapter emits only `[1, 2]` —
the trailing partial channel group (the sample `3`) is dropped, and no
silence is appended.  The output is neither `S` nor `S` padded with
silence to the frame boundary, refuting exact reproduction modulo padding. -/
theorem C4_partial_group_dropped :
    collect 4 (transform (plainSrc 2 44100 [1, 2, 3]) idCallback 2 2) = [1, 2] ∧
    ([1, 2] : List Int) ≠ [1, 2, 3] ∧ ([1, 2] : List Int) ≠ [1, 2, 3, 0] := by
  refine ⟨rfl, by decide, by decide⟩

/-- C4 (amended): with the identity callback and equal input/output channel
counts `c`, collecting all samples yields the input stream truncated to
whole channel groups — exactly the first `c * ⌊|S| / c⌋` samples of `S`, in
order.  No silence padding is appended: a trailing partial cross-channel
group is written into the input buffer but never emitted, because
`frame_size` only counts complete groups.  In particular for `c = 1`, or
whenever `c` divides `|S|`, the adapter reproduces `S` exactly. -/
theorem C4_identity_reproduces_whole_groups (S : List Int) (c fl rate extra : Nat)
    (hc : 0 < c) (hfl : 0 < fl) :
    collect (S.length + 1 + extra) (transform (plainSrc c rate S) idCallback c fl) =
      S.take (c * (S.length / c)) := by
  rw [transform_eq]
  have hib : goodBuf c fl ⟨List.replicate (plainSrc c rate S).channels
      (List.replicate fl 0)⟩ := goodBuf_zero c fl
  exact drain_out c fl rate hc hfl S.length S rfl
    ⟨List.replicate (plainSrc c rate S).channels (List.replicate fl 0)⟩
    ⟨List.replicate c (List.replicate fl 0)⟩ hib 1
    (0 + (materialize idCallback ⟨List.replicate (plainSrc c rate S).channels
      (List.replicate fl 0)⟩ ⟨List.replicate c (List.replicate fl 0)⟩
      (plainSrc c rate S)).pulled) extra

/-- Witness for C4 (amended): a 2-channel stream of three complete groups
is reproduced exactly. -/
theorem C4_identity_reproduces_whole_groups_witness :
    collect 7 (transform (plainSrc 2 44100 [1, 2, 3, 4, 5, 6]) idCallback 2 2) =
      [1, 2, 3, 4, 5, 6] := by
  have h := C4_identity_reproduces_whole_groups [1, 2, 3, 4, 5, 6] 2 2 44100 0
    (by decide) (by decide)
  exact h

/-- C5 counterexample: for the single-channel upstream `[1, 2, 3]` with
`frame_length = 2` (so `r = 1`), the input buffer passed to the callback at
the second (final) materialization holds `[3, 2]`: tail position 1 retains
the value `2` left over from the first frame — it is not silence. -/
theorem C5_tail_not_silence :
    (nexts 2 (transform (plainSrc 1 44100 [1, 2, 3]) idCallback 1 2)).input_buffer.read 0 1 =
      2 ∧ ((2 : Int) ≠ 0) := by
  refine ⟨rfl, by decide⟩

set_option maxHeartbeats 4000000 in
/-- C5 (amended): for a single-channel upstream `A ++ B` with `|A| =
frame_length` and `|B| = r`, `0 < r < frame_length`, the input buffer
passed to the callback at the second (final) materialization holds the `r`
pulled samples of `B` in positions `0..r`, while each tail position
`r..frame_length` retains the sample of `A` previously written there (the
buffer is zeroed only at construction and never re-cleared), not silence.
With the identity callback the output buffer is that same snapshot, and
the callback has run exactly twice. -/
theorem C5_tail_retains_previous_frame (A B : List Int) (fl r rate : Nat)
    (hA : A.length = fl) (hB : B.length = r) (h0 : 0 < r) (hr : r < fl) :
    (∀ j, j < r →
      (nexts fl (transform (plainSrc 1 rate (A ++ B)) idCallback 1 fl)).input_buffer.read 0 j =
        B.getD j 0) ∧
    (∀ j, r ≤ j → j < fl →
      (nexts fl (transform (plainSrc 1 rate (A ++ B)) idCallback 1 fl)).input_buffer.read 0 j =
        A.getD j 0) ∧
    (nexts fl (transform (plainSrc 1 rate (A ++ B)) idCallback 1 fl)).output_buffer =
      (nexts fl (transform (plainSrc 1 rate (A ++ B)) idCallback 1 fl)).input_buffer ∧
    (nexts fl (transform (plainSrc 1 rate (A ++ B)) idCallback 1 fl)).calls = 2 := by
  have hfl : 0 < fl := lt_trans h0 hr
  have hib : goodBuf 1 fl ⟨List.replicate (plainSrc 1 rate (A ++ B)).channels
      (List.replicate fl 0)⟩ := goodBuf_zero 1 fl
  obtain ⟨hpull1, hgood1, hend1, hdata1⟩ := mat_plain 1 fl rate (by decide) hfl idCallback
    ⟨List.replicate (plainSrc 1 rate (A ++ B)).channels (List.replicate fl 0)⟩
    ⟨List.replicate 1 (List.replicate fl 0)⟩ (A ++ B) hib
  have hLen : (A ++ B).length = fl + r := by
    rw [List.length_append, hA, hB]
  obtain ⟨hfr1, hread1⟩ := hdata1 (by omega)
  have hflone : fl * 1 = fl := by omega
  have hFS1 : 1 * (min (fl * 1) (A ++ B).length / 1) = fl := by
    rw [hflone, hLen, Nat.min_eq_left (by omega)]
    simp [Nat.div_one]
  have hdrop : (A ++ B).drop (fl * 1) = B := by
    rw [hflone, ← hA]
    exact List.drop_left A B
  rw [hFS1, hdrop] at hfr1
  rw [transform_eq]
  rw [hfr1]
  have hn := congrArg
    (fun z => nexts z
      (⟨idCallback,
        (materialize idCallback
          ⟨List.replicate (plainSrc 1 rate (A ++ B)).channels (List.replicate fl 0)⟩
          ⟨List.replicate 1 (List.replicate fl 0)⟩ (plainSrc 1 rate (A ++ B))).input_buffer,
        (materialize idCallback
          ⟨List.replicate (plainSrc 1 rate (A ++ B)).channels (List.replicate fl 0)⟩
          ⟨List.replicate 1 (List.replicate fl 0)⟩ (plainSrc 1 rate (A ++ B))).output_buffer,
        Frame.data fl 1 rate (Frame.input (plainSrc 1 rate B)), 0, 1,
        0 + (materialize idCallback
          ⟨List.replicate (plainSrc 1 rate (A ++ B)).channels (List.replicate fl 0)⟩
          ⟨List.replicate 1 (List.replicate fl 0)⟩ (plainSrc 1 rate (A ++ B))).pulled⟩ :
        Transform))
    (show fl = (fl - 1) + 1 + 0 by omega)
  simp only [] at hn
  rw [hn]
  have hsf := steps_frame idCallback
    (materialize idCallback
      ⟨List.replicate (plainSrc 1 rate (A ++ B)).channels (List.replicate fl 0)⟩
      ⟨List.replicate 1 (List.replicate fl 0)⟩ (plainSrc 1 rate (A ++ B))).input_buffer
    (materialize idCallback
      ⟨List.replicate (plainSrc 1 rate (A ++ B)).channels (List.replicate fl 0)⟩
      ⟨List.replicate 1 (List.replicate fl 0)⟩ (plainSrc 1 rate (A ++ B))).output_buffer
    fl 1 rate (Frame.input (plainSrc 1 rate B)) 1
    (0 + (materialize idCallback
      ⟨List.replicate (plainSrc 1 rate (A ++ B)).channels (List.replicate fl 0)⟩
      ⟨List.replicate 1 (List.replicate fl 0)⟩ (plainSrc 1 rate (A ++ B))).pulled)
    (fl - 1) 0 (by omega) 0
  rw [hsf.1]
  simp only [nexts]
  rw [next_frame_eq_input]
  revert hgood1 hread1
  generalize (materialize idCallback
      ⟨List.replicate (plainSrc 1 rate (A ++ B)).channels (List.replicate fl 0)⟩
      ⟨List.replicate 1 (List.replicate fl 0)⟩ (plainSrc 1 rate (A ++ B))).input_buffer = IB1
  generalize (materialize idCallback
      ⟨List.replicate (plainSrc 1 rate (A ++ B)).channels (List.replicate fl 0)⟩
      ⟨List.replicate 1 (List.replicate fl 0)⟩ (plainSrc 1 rate (A ++ B))).output_buffer = OB1
  generalize (materialize idCallback
      ⟨List.replicate (plainSrc 1 rate (A ++ B)).channels (List.replicate fl 0)⟩
      ⟨List.replicate 1 (List.replicate fl 0)⟩ (plainSrc 1 rate (A ++ B))).pulled = PL1
  intro hgood1 hread1
  obtain ⟨hpull2, hgood2, hend2, hdata2⟩ := mat_plain 1 fl rate (by decide) hfl idCallback
    IB1 OB1 B hgood1
  obtain ⟨_, hread2⟩ := hdata2 (by omega)
  have hFS2 : 1 * (min (fl * 1) B.length / 1) = r := by
    rw [hflone, hB, Nat.min_eq_right (by omega)]
    simp [Nat.div_one]
  refine ⟨?_, ?_, ?_, rfl⟩
  · intro j hj
    have h2 := hread2 j (by rw [hFS2]; omega)
    rw [Nat.mod_one, Nat.div_one] at h2
    exact h2
  · intro j hjr hjfl
    have hp := mat_plain_preserve 1 fl rate (by decide) idCallback IB1 OB1 B hgood1
      0 j (by decide) (by rw [hflone, hB]; omega)
    have h1 := hread1 j (by rw [hFS1]; omega)
    rw [Nat.mod_one, Nat.div_one] at h1
    rw [list_getD_append_left A B j 0 (by omega)] at h1
    exact hp.trans h1
  · exact mat_id_output IB1 OB1 (plainSrc 1 rate B)

/-- Witness for C5 (amended) at the concrete stream `[1, 2] ++ [3]`. -/
theorem C5_tail_retains_previous_frame_witness :
    (nexts 2 (transform (plainSrc 1 44100 ([1, 2] ++ [3])) idCallback 1 2)).input_buffer.read 0 0 = 3 ∧
    (nexts 2 (transform (plainSrc 1 44100 ([1, 2] ++ [3])) idCallback 1 2)).input_buffer.read 0 1 = 2 ∧
    (nexts 2 (transform (plainSrc 1 44100 ([1, 2] ++ [3])) idCallback 1 2)).calls = 2 := by
  have h := C5_tail_retains_previous_frame [1, 2] [3] 2 1 44100 rfl rfl
    (by decide) (by decide)
  refine ⟨?_, ?_, h.2.2.2⟩
  · have h1 := h.1 0 (by decide)
    simpa using h1
  · have h2 := h.2.1 1 (by decide) (by decide)
    simpa using h2

/-- C6 counterexample: an adapter constructed with output channel count 1
over a 2-channel upstream reports `channels() = 2` (the upstream count
stored in the current `Data` node), not the constructor's output count 1. -/
theorem C6_channels_not_output_count :
    (transform (plainSrc 2 44100 [1, 2, 3, 4]) idCallback 1 2).channels = some 2 ∧
    some (2 : Nat) ≠ some 1 := by
  refine ⟨rfl, by decide⟩

/-- C6 (amended): `Transform::channels` does not return the output channel
count supplied at construction; after construction and after every call to
`next`, it returns the upstream (input) channel count recorded in the
current `Data` node, and the constant 1 once the adapter has reached the
`End` state.  It therefore equals the constructor's output channel count
only when that count coincides with the value above. -/
theorem C6_channels_is_input_count (s : Src) (fn : Buffer → Buffer → Buffer)
    (co fl n : Nat) :
    (nexts n (transform s fn co fl)).channels =
      some (if (nexts n (transform s fn co fl)).current_frame.isEnd then 1
        else s.channels) :=
  channels_of_inv s.channels _ (nexts_not_input n _ (transform_not_input s fn co fl))
    (nexts_chanInv s.channels n _ (transform_chanInv s fn co fl))

/-- C7: the `End` state is absorbing: once the current frame node is `End`,
`next()` returns `none` and leaves the state — including the ghost
callback counter — completely unchanged, for every subsequent call;
draining collects nothing.  (The accessors also keep answering: see
`C10_unreachable_arms`.) -/
theorem C7_end_absorbing (st : Transform) (h : st.current_frame = Frame.end_) (n : Nat) :
    st.next = (none, st) ∧ nexts n st = st ∧ collect n st = [] := by
  refine ⟨?_, nexts_end st h n, collect_end st h n⟩
  unfold Transform.next
  rw [h]

/-- Witness for C7: an adapter over an empty upstream is already in the
`End` state; five further pulls change nothing and yield nothing. -/
theorem C7_end_absorbing_witness :
    (transform (plainSrc 1 44100 ([] : List Int)) idCallback 1 1).next =
      (none, transform (plainSrc 1 44100 ([] : List Int)) idCallback 1 1) ∧
    nexts 5 (transform (plainSrc 1 44100 ([] : List Int)) idCallback 1 1) =
      transform (plainSrc 1 44100 ([] : List Int)) idCallback 1 1 ∧
    collect 5 (transform (plainSrc 1 44100 ([] : List Int)) idCallback 1 1) = [] :=
  C7_end_absorbing _ rfl 5

/-- C8: during one materialization the adapter pulls at most
`min(h, samples() * channels())` samples from upstream when the hint
`current_frame_len()` is `Some h`, and exactly
`min(buffer capacity, samples available)` — i.e. up to the full buffer
capacity — when the hint is `None`. -/
theorem C8_hint_bounds_pull (f : Buffer → Buffer → Buffer) (ib ob : Buffer) (s : Src) :
    (∀ h, s.current_frame_len = some h →
      (materialize f ib ob s).pulled ≤ min h (ib.samples * ib.channels)) ∧
    (s.current_frame_len = none →
      (materialize f ib ob s).pulled = min (ib.samples * ib.channels) s.data.length) := by
  constructor
  · intro h hh
    unfold Src.current_frame_len at hh
    rw [mat_pulled, hh]
    by_cases h0 : h = 0
    · subst h0
      rw [if_pos rfl]
      exact Nat.zero_le _
    · rw [if_neg (by simpa using h0)]
      simp only [Option.getD_some]
      exact Nat.min_le_left _ _
  · intro hh
    unfold Src.current_frame_len at hh
    rw [mat_pulled, hh]
    rw [if_neg (by simp)]
    simp

/-- Witness for C8: a `Some 3` hint caps the pull at 3 even though 5
samples are available and the buffer holds 4; a `None` hint pulls the full
capacity 4. -/
theorem C8_hint_bounds_pull_witness :
    (materialize idCallback ⟨List.replicate 1 (List.replicate 4 0)⟩
      ⟨List.replicate 1 (List.replicate 4 0)⟩
      ⟨[1, 2, 3, 4, 5], 1, 44100, fun _ => some 3⟩).pulled ≤ 3 ∧
    (materialize idCallback ⟨List.replicate 1 (List.replicate 4 0)⟩
      ⟨List.replicate 1 (List.replicate 4 0)⟩
      (plainSrc 1 44100 [1, 2, 3, 4, 5])).pulled = 4 := by
  constructor
  · have h := (C8_hint_bounds_pull idCallback ⟨List.replicate 1 (List.replicate 4 0)⟩
      ⟨List.replicate 1 (List.replicate 4 0)⟩
      ⟨[1, 2, 3, 4, 5], 1, 44100, fun _ => some 3⟩).1 3 rfl
    exact le_trans h (by decide)
  · have h := (C8_hint_bounds_pull idCallback ⟨List.replicate 1 (List.replicate 4 0)⟩
      ⟨List.replicate 1 (List.replicate 4 0)⟩
      (plainSrc 1 44100 [1, 2, 3, 4, 5])).2 rfl
    exact h.trans (by decide)

/-- C9: under debug semantics, `Buffer::interleave` and
`Buffer::deinterleave` of `src/buffer.rs` panic (via the `assert_eq!`)
exactly when the supplied slice's length differs from
`get_channels() * get_samples()`, and complete without panicking on
matching lengths.  The hypothesis keeps the `u32` product below `2^32`,
where the multiplication inside the assertion cannot itself overflow (true
of every buffer the library allocates). -/
theorem C9_shape_assert (b : BufferFfi) (n m : Nat)
    (h : b.get_channels * b.get_samples < 2 ^ 32) :
    (b.interleave n = none ↔ b.get_channels * b.get_samples ≠ n) ∧
    (b.deinterleave m = none ↔ b.get_channels * b.get_samples ≠ m) := by
  constructor
  · unfold BufferFfi.interleave
    rw [if_pos h]
    constructor
    · intro hn heq
      rw [if_pos heq] at hn
      exact Option.noConfusion hn
    · intro hne
      rw [if_neg hne]
  · unfold BufferFfi.deinterleave
    rw [if_pos h]
    constructor
    · intro hn heq
      rw [if_pos heq] at hn
      exact Option.noConfusion hn
    · intro hne
      rw [if_neg hne]

/-- Witness for C9: a 2 × 3 buffer accepts slices of length 6 and rejects
length 5. -/
theorem C9_shape_assert_witness :
    (BufferFfi.mk 2 3).interleave 6 ≠ none ∧
    (BufferFfi.mk 2 3).interleave 5 = none ∧
    (BufferFfi.mk 2 3).deinterleave 6 ≠ none := by
  have h6 := C9_shape_assert (BufferFfi.mk 2 3) 6 6 (by decide)
  have h5 := C9_shape_assert (BufferFfi.mk 2 3) 5 6 (by decide)
  refine ⟨?_, ?_, ?_⟩
  · intro hn
    exact absurd (h6.1.mp hn) (by decide)
  · exact h5.1.mpr (by decide)
  · intro hn
    exact absurd (h6.2.mp hn) (by decide)

/-- C10: after `transform()` returns and after every sequence of `next()`
calls, the adapter's current frame node is a `Data` or `End` node, never
`Input`; consequently every `unreachable!()` arm — in `next()` (modelled by
`isInput` being false at the scrutinee) and in `channels()`,
`sample_rate()`, `current_frame_len()` (modelled by the accessors returning
`some _`, with `none` standing for the panic) — is never executed. -/
theorem C10_unreachable_arms (s : Src) (fn : Buffer → Buffer → Buffer) (co fl n : Nat) :
    (nexts n (transform s fn co fl)).current_frame.isInput = false ∧
    (nexts n (transform s fn co fl)).channels ≠ none ∧
    (nexts n (transform s fn co fl)).sample_rate ≠ none ∧
    (nexts n (transform s fn co fl)).current_frame_len ≠ none := by
  have h := nexts_not_input n _ (transform_not_input s fn co fl)
  exact ⟨h, (accessors_some _ h).1, (accessors_some _ h).2.1, (accessors_some _ h).2.2⟩
